import Mathlib

/-
Verification of the axiprop utilities (src/axiprop/utils.py): the
spectral-to-temporal reconstruction kernels, the single-time evaluator
get_E_r, the laser-profile abstraction AxipropLaser.E_field, the
amplitude generator laser_from_fu, and the WarpX binary writers.

Arrays are modelled as (nested) Lists; a numpy ndarray is a rectangular
nested list, and rectangularity is carried as a hypothesis where a
theorem needs it.  Failures (assert statements, IndexError on a bad
index, broadcasting errors, OverflowError in int.to_bytes) are modelled
by Option: none is raised-exception, some is normal return.  Loops that
write disjoint slots of a preallocated array are translated to batch
list constructions, which agree with the sequential loop because every
iteration touches only its own slot (the source documents the loops as
order-independent).
-/

namespace Axiprop

/-- Speed of light in m/s, scipy.constants.c, used by every kernel. -/
def c : ℝ := 299792458

/-- Electron mass in kg, scipy.constants.m_e. -/
def m_e : ℝ := 9.1093837015e-31

/-- Elementary charge in C, scipy.constants.e. -/
def e : ℝ := 1.602176634e-19

/-- Sequential evaluation of an Option-valued map over a list: none as
soon as one element fails, otherwise the list of results.  This is the
translation of a python loop whose body can raise. -/
def omap {α β : Type} (f : α → Option β) : List α → Option (List β)
  | [] => some []
  | a :: l => (f a).bind (fun b => (omap f l).map (fun bs => b :: bs))

/-- Elementwise product of two 1-d complex arrays under numpy
broadcasting: equal lengths multiply pointwise, a length-1 operand is
stretched, anything else is a broadcast error. -/
def bmul (a b : List ℂ) : Option (List ℂ) :=
  if a.length = b.length then some (List.zipWith (fun x y => x * y) a b)
  else if b.length = 1 then some (a.map (fun z => z * b.headD 0))
  else if a.length = 1 then some (b.map (fun z => a.headD 0 * z))
  else none

/-- Translation of np.real(v).sum() for a 1-d complex array v. -/
def reSum (l : List ℂ) : ℝ := (l.map Complex.re).sum

/-- Phase-factor vector np.exp(1j * kz * c * t), one entry per mode. -/
noncomputable def fftFactor (kz : List ℝ) (tv : ℝ) : List ℂ :=
  kz.map (fun k : ℝ => Complex.exp (Complex.I * (k : ℂ) * (c : ℂ) * (tv : ℂ)))

/-- Number of columns of a 2-d array (the length of its first row):
shape[1] for a rectangular nested list. -/
def width {α : Type} (u : List (List α)) : ℕ := (u.headD []).length

/-- Innermost axis length of a 3-d array: shape[2]. -/
def depth3 (u : List (List (List ℂ))) : ℕ := ((u.headD []).headD []).length

/-- Column u[:, ir] of a 2-d complex array; none on an out-of-range
index (IndexError). -/
def column2 (u : List (List ℂ)) (ir : ℕ) : Option (List ℂ) :=
  omap (fun row => row[ir]?) u

/-- Column u[:, ix, iy] of a 3-d complex array; none on an out-of-range
index (IndexError). -/
def column3 (u : List (List (List ℂ))) (ix iy : ℕ) : Option (List ℂ) :=
  omap (fun plane => (plane[ix]?).bind (fun row => row[iy]?)) u

/-- Translation of np.real(u[:, ir] * FFT_factor).sum() at time tv. -/
noncomputable def innerSum2 (u : List (List ℂ)) (kz : List ℝ) (tv : ℝ) (ir : ℕ) : Option ℝ :=
  (column2 u ir).bind (fun col => (bmul col (fftFactor kz tv)).map reSum)

/-- Translation of np.real(u[:, ix, iy] * FFT_factor).sum() at time tv. -/
noncomputable def innerSum3 (u : List (List (List ℂ))) (kz : List ℝ) (tv : ℝ) (ix iy : ℕ) : Option ℝ :=
  (column3 u ix iy).bind (fun col => (bmul col (fftFactor kz tv)).map reSum)

/-- In-place accumulation u_t[it] += ds[it] for it below ds.length,
later entries unchanged. -/
def addPrefix (old ds : List ℝ) : List ℝ :=
  List.zipWith (fun a d => a + d) old ds ++ old.drop ds.length

/-- Overwrite of the leading entries of a row by freshly computed
values; entries past the computed range keep their old value. -/
def overwriteRow (old new : List ℝ) : List ℝ := new ++ old.drop new.length

/-- Row-by-row overwrite of the leading rows of a 2-d array. -/
def overwriteRows (old new : List (List ℝ)) : List (List ℝ) :=
  List.zipWith overwriteRow old new ++ old.drop new.length

/-- Resolution of a (possibly negative) python index into an axis of
length n: a negative index counts from the end, and anything still out
of range is an IndexError. -/
def pyIdx (n : ℕ) (i : ℤ) : Option ℕ :=
  let j := if i < 0 then i + n else i
  if 0 ≤ j ∧ j < n then some j.toNat else none

/-- Translation of get_temporal_1d (utils.py lines 54-69): asserts
u_t.shape[-1] == Nr where Nr = u.shape[1], then for each time it adds
into u_t[it] the mode-sums over the radial indices below Nr_loc.  The
write u_t[it] needs it to be in range, hence the t.length bound; with
Nr_loc = 0 the body never writes, so no index is ever out of range. -/
noncomputable def get_temporal_1d (u : List (List ℂ)) (u_t : List ℝ) (t kz : List ℝ)
    (Nr_loc : ℕ) : Option (List ℝ) :=
  if u_t.length = width u then
    if t.length ≤ u_t.length ∨ Nr_loc = 0 then
      (omap (fun tv => (omap (innerSum2 u kz tv) (List.range Nr_loc)).map List.sum) t).map
        (addPrefix u_t)
    else none
  else none

/-- Translation of get_temporal_radial (utils.py lines 71-86): asserts
u_t.shape[-1] == Nr and u_t.shape[0] == Nt, then overwrites
u_t[it, ir] with the mode-sum for every time and radial index. -/
noncomputable def get_temporal_radial (u : List (List ℂ)) (u_t : List (List ℝ))
    (t kz : List ℝ) : Option (List (List ℝ)) :=
  if width u_t = width u ∧ u_t.length = t.length then
    (omap (fun tv => omap (innerSum2 u kz tv) (List.range (width u))) t).map
      (overwriteRows u_t)
  else none

/-- Translation of get_temporal_slice2d (utils.py lines 88-102): asserts
u_t.shape[-1] == Nx, then overwrites u_t[it, ix] with the mode-sum taken
at the fixed transverse index Ny//2 - 1 (python semantics, so negative
values wrap); with Nx = 0 the inner loop body never runs, so neither the
index nor any write can fail. -/
noncomputable def get_temporal_slice2d (u : List (List (List ℂ))) (u_t : List (List ℝ))
    (t kz : List ℝ) : Option (List (List ℝ)) :=
  if width u_t = width u ∧ (t.length ≤ u_t.length ∨ width u = 0) then
    (omap (fun tv => omap
        (fun ix => (pyIdx (depth3 u) ((depth3 u : ℤ) / 2 - 1)).bind
          (innerSum3 u kz tv ix))
        (List.range (width u))) t).map
      (overwriteRows u_t)
  else none

/-- Translation of get_temporal_3d (utils.py lines 104-120): allocates
its own [Nt, Nx, Ny] output and fills every entry with the mode-sum. -/
noncomputable def get_temporal_3d (u : List (List (List ℂ))) (t kz : List ℝ) :
    Option (List (List (List ℝ))) :=
  omap (fun tv => omap
      (fun ix => omap (fun iy => innerSum3 u kz tv ix iy)
        (List.range (depth3 u)))
      (List.range (width u))) t

/-- Translation of get_E_r (utils.py lines 125-129).  The matrix
FFT_factor = (np.exp(1j * kz * c * t) * np.ones_like(u).T).T broadcasts
the phase vector against the mode axis of u (modelled by bmul against a
column of ones); its element count FFT_factor.size is the divisor of
the final division, namely f.length * Nr. -/
noncomputable def get_E_r (tv : ℝ) (u : List (List ℂ)) (kz : List ℝ) : Option (List ℝ) :=
  (bmul (List.replicate u.length 1) (fftFactor kz tv)).bind (fun f =>
    (omap (fun ir => (column2 u ir).bind (fun col => (bmul col f).map reSum))
        (List.range (width u))).map
      (List.map (fun s => s / ((f.length * width u : ℕ) : ℝ))))

/-- Statement of the claim wording for the single-time evaluator: the
mean over the Nkz frequency modes, i.e. the same synthesis divided by
u.length alone.  Written for comparison with get_E_r, which follows the
source. -/
noncomputable def get_E_r_claim (tv : ℝ) (u : List (List ℂ)) (kz : List ℝ) : Option (List ℝ) :=
  (bmul (List.replicate u.length 1) (fftFactor kz tv)).bind (fun f =>
    (omap (fun ir => (column2 u ir).bind (fun col => (bmul col f).map reSum))
        (List.range (width u))).map
      (List.map (fun s => s / (u.length : ℝ))))

/-- Translation of laser_from_fu (utils.py lines 27-41): tabulates fu on
the outer grid of kz and r; with normalize it divides by
((np.abs(a0) ** 2).sum(0).max()) ** 0.5, the square root of the largest,
over the spatial axis, of the per-radius sums over the frequency axis.
np.max of the empty array raises, hence the Option. -/
noncomputable def laser_from_fu (fu : ℝ → ℝ → ℂ) (kz r : List ℝ) (normalize : Bool) :
    Option (List (List ℂ)) :=
  let a0 := kz.map (fun k => r.map (fun rv => fu k rv))
  if normalize then
    (((List.range r.length).map
        (fun ir => (a0.map (fun row => Complex.abs (row.getD ir 0) ^ 2)).sum)).max?).map
      (fun M => a0.map (List.map (fun z => z / (Real.sqrt M : ℂ))))
  else some a0

/-- Concrete LaserProfile record (utils.py lines 132-155): the base
fields propag_direction and gpu_capable, the shared arrays u, kz, r,
the scalar time_offset, and the two scalars E0x, E0y fixed at
construction. -/
structure AxipropLaser where
  propag_direction : ℝ
  gpu_capable : Bool
  u : List (List ℂ)
  kz : List ℝ
  r : List ℝ
  time_offset : ℝ
  E0x : ℝ
  E0y : ℝ

/-- Constructor semantics of AxipropLaser.__init__: propagation
direction +1, no gpu, and E0x, E0y derived once from a0, theta_pol and
lambda0 via E0 = a0 * m_e * c^2 * k0 / e with k0 = 2 * pi / lambda0. -/
noncomputable def AxipropLaser.make (a0 : ℝ) (u : List (List ℂ)) (kz r : List ℝ)
    (time_offset theta_pol lambda0 : ℝ) : AxipropLaser :=
  ⟨1, false, u, kz, r, time_offset,
    a0 * m_e * c ^ 2 * (2 * Real.pi / lambda0) / e * Real.cos theta_pol,
    a0 * m_e * c ^ 2 * (2 * Real.pi / lambda0) / e * Real.sin theta_pol⟩

/-- Least element of a real axis array (its sorted first entry). -/
def rmin (l : List ℝ) : ℝ := l.foldl min (l.headD 0)

/-- Greatest element of a real axis array (its sorted last entry). -/
def rmax (l : List ℝ) : ℝ := l.foldl max (l.headD 0)

/-- Model of scipy interp1d(r, u_r, kind cubic, fill_value 0.0,
bounds_error False) applied at a point: the in-domain cubic spline is
external library code, abstracted as the spline argument; the
documented boundary policy — strictly outside [min r, max r] the
value is exactly the fill value 0 — is explicit. -/
noncomputable def interp1dZeroFill (spline : List ℝ → List ℝ → ℝ → ℝ) (xs ys : List ℝ)
    (x : ℝ) : ℝ :=
  if x < rmin xs ∨ rmax xs < x then 0 else spline xs ys x

/-- Translation of AxipropLaser.E_field (utils.py lines 157-165) in
state-passing form: the returned AxipropLaser is the object state after
the call (the body assigns no attribute, so it is the input record).
get_E_r runs at t + time_offset; the interpolated radial profile at
r_p = sqrt(x*x + y*y) is scaled by E0x and E0y.  z is accepted and
never read. -/
noncomputable def E_field (spline : List ℝ → List ℝ → ℝ → ℝ) (p : AxipropLaser)
    (x y z t : ℝ) : Option ((ℝ × ℝ) × AxipropLaser) :=
  (get_E_r (t + p.time_offset) p.u p.kz).map (fun u_r =>
    ((p.E0x * interp1dZeroFill spline p.r u_r (Real.sqrt (x * x + y * y)),
      p.E0y * interp1dZeroFill spline p.r u_r (Real.sqrt (x * x + y * y))), p))

/-- Little-endian 4-byte encoding of a count, the image of
int.to_bytes(4, byteorder little, signed False) for n below 2 ^ 32. -/
def le32 (n : ℕ) : List ℕ :=
  [n % 256, n / 256 % 256, n / 256 ^ 2 % 256, n / 256 ^ 3 % 256]

/-- Translation of write_file_unf (utils.py lines 176-198).  enc is the
numpy scalar tobytes encoding (element width and byte order follow the
host array dtype); the field array is taken flattened in storage order.
int.to_bytes raises OverflowError for a count of 2 ^ 32 or more, and
indexing raises IndexError on an empty axis, hence the Option. -/
noncomputable def write_file_unf (enc : ℝ → List ℕ) (x y t E : List ℝ) : Option (List ℕ) :=
  if t.length < 2 ^ 32 ∧ x.length < 2 ^ 32 ∧ y.length < 2 ^ 32 ∧
      t.length ≠ 0 ∧ x.length ≠ 0 ∧ y.length ≠ 0 then
    some ([1] ++ le32 t.length ++ le32 x.length ++ le32 y.length
      ++ enc (t.headD 0) ++ enc (t.getLastD 0)
      ++ enc (x.headD 0) ++ enc (x.getLastD 0)
      ++ (if y.length = 1 then enc (y.headD 0)
          else enc (y.headD 0) ++ enc (y.getLastD 0))
      ++ E.flatMap enc)
  else none

/-- Translation of write_file (utils.py lines 201-216): flag byte 0,
the three counts, then the complete t, x, y axis arrays followed by the
full field array. -/
def write_file (enc : ℝ → List ℕ) (x y t E : List ℝ) : Option (List ℕ) :=
  if t.length < 2 ^ 32 ∧ x.length < 2 ^ 32 ∧ y.length < 2 ^ 32 then
    some ([0] ++ le32 t.length ++ le32 x.length ++ le32 y.length
      ++ t.flatMap enc ++ x.flatMap enc ++ y.flatMap enc ++ E.flatMap enc)
  else none

/-! Toolkit lemmas about the embedding combinators. -/

theorem omap_eq_some_map {α β : Type} (f : α → Option β) (g : α → β) :
    ∀ l : List α, (∀ a ∈ l, f a = some (g a)) → omap f l = some (l.map g)
  | [], _ => rfl
  | a :: l, h => by
    have ha := h a (List.mem_cons_self a l)
    have hl := omap_eq_some_map f g l (fun b hb => h b (List.mem_cons_of_mem a hb))
    simp [omap, ha, hl]

theorem omap_map_comm {α β γ : Type} (f : α → Option β) (g : α → Option γ)
    (φ : β → γ) : ∀ l : List α, (∀ a ∈ l, g a = (f a).map φ) →
    omap g l = (omap f l).map (List.map φ)
  | [], _ => rfl
  | a :: l, h => by
    have ha := h a (List.mem_cons_self a l)
    have hl := omap_map_comm f g φ l (fun b hb => h b (List.mem_cons_of_mem a hb))
    cases hfa : f a with
    | none => simp [omap, ha, hfa]
    | some b =>
      cases hfl : omap f l with
      | none => simp [omap, ha, hfa, hl, hfl]
      | some bs => simp [omap, ha, hfa, hl, hfl]

theorem getD_zero_map_mul (k : ℝ) (row : List ℂ) (ir : ℕ) :
    (row.map (fun z => (k : ℂ) * z)).getD ir 0 = (k : ℂ) * row.getD ir 0 := by
  rcases Nat.lt_or_ge ir row.length with h | h
  · rw [List.getD_eq_getElem _ _ (by simpa using h), List.getD_eq_getElem _ _ h]
    simp
  · rw [List.getD_eq_default _ _ (by simpa using h), List.getD_eq_default _ _ h]
    simp

theorem reSum_map_mul (k : ℝ) (l : List ℂ) :
    reSum (l.map (fun z => (k : ℂ) * z)) = k * reSum l := by
  unfold reSum
  rw [List.map_map]
  induction l with
  | nil => simp
  | cons a l ih =>
    simp only [List.map_cons, List.sum_cons, Function.comp] at *
    rw [ih]
    simp [Complex.mul_re, mul_add]

/-- Closed form of one mode-sum of a 2-d field: the sum over frequency
modes of Re(u[ik, ir] * exp(i kz[ik] c tv)). -/
noncomputable def modeSum2 (u : List (List ℂ)) (kz : List ℝ) (tv : ℝ) (ir : ℕ) : ℝ :=
  (List.zipWith
    (fun (row : List ℂ) (k : ℝ) => (row.getD ir 0 *
      Complex.exp (Complex.I * (k : ℂ) * (c : ℂ) * (tv : ℂ))).re) u kz).sum

/-- Closed form of one mode-sum of a 3-d field at transverse point
(ix, iy). -/
noncomputable def modeSum3 (u : List (List (List ℂ))) (kz : List ℝ) (tv : ℝ)
    (ix iy : ℕ) : ℝ :=
  (List.zipWith
    (fun (plane : List (List ℂ)) (k : ℝ) => ((plane.getD ix []).getD iy 0 *
      Complex.exp (Complex.I * (k : ℂ) * (c : ℂ) * (tv : ℂ))).re) u kz).sum

theorem column2_eq (u : List (List ℂ)) (ir : ℕ)
    (h : ∀ row ∈ u, ir < row.length) :
    column2 u ir = some (u.map (fun row => row.getD ir 0)) := by
  refine omap_eq_some_map _ _ u (fun row hrow => ?_)
  rw [List.getElem?_eq_getElem (h row hrow), List.getD_eq_getElem _ _ (h row hrow)]

theorem column3_eq (u : List (List (List ℂ))) (ix iy : ℕ)
    (hx : ∀ plane ∈ u, ix < plane.length)
    (hy : ∀ plane ∈ u, iy < (plane.getD ix []).length) :
    column3 u ix iy = some (u.map (fun plane => (plane.getD ix []).getD iy 0)) := by
  refine omap_eq_some_map _ _ u (fun plane hplane => ?_)
  have hx' : ix < plane.length := hx plane hplane
  have hrow : plane.getD ix [] = plane[ix] := List.getD_eq_getElem _ _ hx'
  have hy' : iy < plane[ix].length := by rw [← hrow]; exact hy plane hplane
  rw [List.getElem?_eq_getElem hx']
  simp only [Option.some_bind]
  rw [List.getElem?_eq_getElem hy', hrow, List.getD_eq_getElem _ _ hy']

theorem innerSum2_eq (u : List (List ℂ)) (kz : List ℝ) (tv : ℝ) (ir : ℕ)
    (h : ∀ row ∈ u, ir < row.length) (hkz : kz.length = u.length) :
    innerSum2 u kz tv ir = some (modeSum2 u kz tv ir) := by
  unfold innerSum2
  rw [column2_eq u ir h]
  have hlen : (u.map (fun row => row.getD ir 0)).length = (fftFactor kz tv).length := by
    unfold fftFactor
    rw [List.length_map, List.length_map, hkz]
  simp only [Option.some_bind, bmul, if_pos hlen, Option.map_some']
  unfold fftFactor reSum modeSum2
  rw [List.zipWith_map, List.map_zipWith]

theorem innerSum3_eq (u : List (List (List ℂ))) (kz : List ℝ) (tv : ℝ) (ix iy : ℕ)
    (hx : ∀ plane ∈ u, ix < plane.length)
    (hy : ∀ plane ∈ u, iy < (plane.getD ix []).length)
    (hkz : kz.length = u.length) :
    innerSum3 u kz tv ix iy = some (modeSum3 u kz tv ix iy) := by
  unfold innerSum3
  rw [column3_eq u ix iy hx hy]
  have hlen : (u.map (fun plane => (plane.getD ix []).getD iy 0)).length
      = (fftFactor kz tv).length := by
    unfold fftFactor
    rw [List.length_map, List.length_map, hkz]
  simp only [Option.some_bind, bmul, if_pos hlen, Option.map_some']
  unfold fftFactor reSum modeSum3
  rw [List.zipWith_map, List.map_zipWith]

theorem pyIdx_some_lt (n : ℕ) (i : ℤ) (m : ℕ) (h : pyIdx n i = some m) : m < n := by
  unfold pyIdx at h
  by_cases hc : 0 ≤ (if i < 0 then i + n else i) ∧ (if i < 0 then i + n else i) < n
  · rw [if_pos hc] at h
    cases h
    omega
  · rw [if_neg hc] at h
    cases h

theorem pyIdx_half (Ny : ℕ) (h : 1 ≤ Ny) :
    pyIdx Ny ((Ny : ℤ) / 2 - 1) = some (if Ny = 1 then 0 else Ny / 2 - 1) := by
  unfold pyIdx
  rcases eq_or_lt_of_le h with h1 | h2
  · rw [← h1]
    rfl
  · have hq : 1 ≤ Ny / 2 := (Nat.one_le_div_iff (by omega)).mpr (by omega)
    have hlt : Ny / 2 < Ny := Nat.div_lt_self (by omega) (by omega)
    have hcast : ((Ny : ℤ)) / 2 = ((Ny / 2 : ℕ) : ℤ) := (Int.ofNat_ediv Ny 2).symm
    rw [hcast]
    have hneg : ¬ (((Ny / 2 : ℕ) : ℤ) - 1 < 0) := by omega
    rw [if_neg hneg]
    have hcond : 0 ≤ ((Ny / 2 : ℕ) : ℤ) - 1 ∧ ((Ny / 2 : ℕ) : ℤ) - 1 < (Ny : ℤ) :=
      ⟨by omega, by omega⟩
    rw [if_pos hcond, if_neg (by omega : ¬ Ny = 1)]
    congr 1
    omega

theorem get_temporal_1d_eq (u : List (List ℂ)) (u_t t kz : List ℝ) (Nr_loc : ℕ)
    (hrect : ∀ row ∈ u, row.length = width u) (hkz : kz.length = u.length)
    (hloc : Nr_loc ≤ width u) (hsh : u_t.length = width u) (ht : t.length ≤ u_t.length) :
    get_temporal_1d u u_t t kz Nr_loc =
      some (addPrefix u_t (t.map (fun tv =>
        ((List.range Nr_loc).map (modeSum2 u kz tv)).sum))) := by
  unfold get_temporal_1d
  rw [if_pos hsh, if_pos (Or.inl ht)]
  have houter : omap (fun tv => (omap (innerSum2 u kz tv) (List.range Nr_loc)).map List.sum) t
      = some (t.map (fun tv => ((List.range Nr_loc).map (modeSum2 u kz tv)).sum)) := by
    refine omap_eq_some_map _ _ t (fun tv _ => ?_)
    have hin : omap (innerSum2 u kz tv) (List.range Nr_loc)
        = some ((List.range Nr_loc).map (modeSum2 u kz tv)) := by
      refine omap_eq_some_map _ _ _ (fun ir hir => ?_)
      exact innerSum2_eq u kz tv ir
        (fun row hrow => by
          rw [hrect row hrow]
          exact lt_of_lt_of_le (List.mem_range.mp hir) hloc) hkz
    rw [hin, Option.map_some']
  rw [houter, Option.map_some']

theorem get_temporal_radial_eq (u : List (List ℂ)) (u_t : List (List ℝ)) (t kz : List ℝ)
    (hrect : ∀ row ∈ u, row.length = width u) (hkz : kz.length = u.length)
    (hw : width u_t = width u) (hn : u_t.length = t.length) :
    get_temporal_radial u u_t t kz =
      some (overwriteRows u_t (t.map (fun tv =>
        (List.range (width u)).map (modeSum2 u kz tv)))) := by
  unfold get_temporal_radial
  rw [if_pos (And.intro hw hn)]
  have houter : omap (fun tv => omap (innerSum2 u kz tv) (List.range (width u))) t
      = some (t.map (fun tv => (List.range (width u)).map (modeSum2 u kz tv))) := by
    refine omap_eq_some_map _ _ t (fun tv _ => ?_)
    refine omap_eq_some_map _ _ _ (fun ir hir => ?_)
    exact innerSum2_eq u kz tv ir
      (fun row hrow => by
        rw [hrect row hrow]
        exact List.mem_range.mp hir) hkz
  rw [houter, Option.map_some']

theorem get_temporal_slice2d_eq (u : List (List (List ℂ))) (u_t : List (List ℝ))
    (t kz : List ℝ)
    (hx3 : ∀ plane ∈ u, plane.length = width u)
    (hy3 : ∀ plane ∈ u, ∀ row ∈ plane, row.length = depth3 u)
    (hkz : kz.length = u.length) (hNy : 1 ≤ depth3 u)
    (hw : width u_t = width u) (ht : t.length ≤ u_t.length) :
    get_temporal_slice2d u u_t t kz =
      some (overwriteRows u_t (t.map (fun tv =>
        (List.range (width u)).map (fun ix =>
          modeSum3 u kz tv ix (if depth3 u = 1 then 0 else depth3 u / 2 - 1))))) := by
  unfold get_temporal_slice2d
  rw [if_pos (And.intro hw (Or.inl ht))]
  have hiy : (if depth3 u = 1 then 0 else depth3 u / 2 - 1) < depth3 u := by
    rcases eq_or_lt_of_le hNy with h1 | h2
    · rw [if_pos h1.symm]
      omega
    · rw [if_neg (show ¬ depth3 u = 1 by omega)]
      have := Nat.div_lt_self (show 0 < depth3 u by omega) (one_lt_two)
      omega
  have houter : omap (fun tv => omap
      (fun ix => (pyIdx (depth3 u) ((depth3 u : ℤ) / 2 - 1)).bind (innerSum3 u kz tv ix))
      (List.range (width u))) t
      = some (t.map (fun tv => (List.range (width u)).map (fun ix =>
          modeSum3 u kz tv ix (if depth3 u = 1 then 0 else depth3 u / 2 - 1)))) := by
    refine omap_eq_some_map _ _ t (fun tv _ => ?_)
    refine omap_eq_some_map _ _ _ (fun ix hix => ?_)
    rw [pyIdx_half (depth3 u) hNy, Option.some_bind]
    refine innerSum3_eq u kz tv ix _ (fun plane hplane => ?_) (fun plane hplane => ?_) hkz
    · rw [hx3 plane hplane]
      exact List.mem_range.mp hix
    · have hxlt : ix < plane.length := by
        rw [hx3 plane hplane]
        exact List.mem_range.mp hix
      rw [List.getD_eq_getElem _ _ hxlt, hy3 plane hplane _ (List.getElem_mem hxlt)]
      exact hiy
  rw [houter, Option.map_some']

theorem get_temporal_3d_eq (u : List (List (List ℂ))) (t kz : List ℝ)
    (hx3 : ∀ plane ∈ u, plane.length = width u)
    (hy3 : ∀ plane ∈ u, ∀ row ∈ plane, row.length = depth3 u)
    (hkz : kz.length = u.length) :
    get_temporal_3d u t kz =
      some (t.map (fun tv => (List.range (width u)).map (fun ix =>
        (List.range (depth3 u)).map (fun iy => modeSum3 u kz tv ix iy)))) := by
  unfold get_temporal_3d
  refine omap_eq_some_map _ _ t (fun tv _ => ?_)
  refine omap_eq_some_map _ _ _ (fun ix hix => ?_)
  refine omap_eq_some_map _ _ _ (fun iy hiy => ?_)
  refine innerSum3_eq u kz tv ix iy (fun plane hplane => ?_) (fun plane hplane => ?_) hkz
  · rw [hx3 plane hplane]
    exact List.mem_range.mp hix
  · have hxlt : ix < plane.length := by
      rw [hx3 plane hplane]
      exact List.mem_range.mp hix
    rw [List.getD_eq_getElem _ _ hxlt, hy3 plane hplane _ (List.getElem_mem hxlt)]
    exact List.mem_range.mp hiy

theorem zipWith_mul_replicate_one (b : List ℂ) :
    List.zipWith (fun x y => x * y) (List.replicate b.length 1) b = b := by
  induction b with
  | nil => rfl
  | cons a l ih =>
    simp only [List.length_cons, List.replicate_succ, List.zipWith_cons_cons, one_mul]
    rw [ih]

theorem get_E_r_eq (tv : ℝ) (u : List (List ℂ)) (kz : List ℝ)
    (hrect : ∀ row ∈ u, row.length = width u) (hkz : kz.length = u.length) :
    get_E_r tv u kz = some ((List.range (width u)).map
      (fun ir => modeSum2 u kz tv ir / ((u.length * width u : ℕ) : ℝ))) := by
  unfold get_E_r
  have hflen : (fftFactor kz tv).length = u.length := by
    unfold fftFactor
    rw [List.length_map, hkz]
  have hb : bmul (List.replicate u.length 1) (fftFactor kz tv)
      = some (fftFactor kz tv) := by
    unfold bmul
    rw [if_pos (by rw [List.length_replicate, hflen]), ← hflen,
      zipWith_mul_replicate_one]
  rw [hb]
  simp only [Option.some_bind]
  have hmm : omap (fun ir => (column2 u ir).bind
        (fun col => (bmul col (fftFactor kz tv)).map reSum)) (List.range (width u))
      = some ((List.range (width u)).map (modeSum2 u kz tv)) := by
    refine omap_eq_some_map _ _ _ (fun ir hir => ?_)
    exact innerSum2_eq u kz tv ir
      (fun row hrow => by
        rw [hrect row hrow]
        exact List.mem_range.mp hir) hkz
  rw [hmm, Option.map_some', List.map_map, hflen]
  rfl

/-- Scaling of a 2-d complex field by a real constant k (u -> k * u). -/
def scaleU (k : ℝ) (u : List (List ℂ)) : List (List ℂ) :=
  u.map (List.map (fun z : ℂ => (k : ℂ) * z))

/-- Scaling of a 3-d complex field by a real constant k. -/
def scaleU3 (k : ℝ) (u : List (List (List ℂ))) : List (List (List ℂ)) :=
  u.map (List.map (List.map (fun z : ℂ => (k : ℂ) * z)))

theorem width_scaleU (k : ℝ) (u : List (List ℂ)) : width (scaleU k u) = width u := by
  cases u with
  | nil => rfl
  | cons r l => simp [scaleU, width]

theorem width_scaleU3 (k : ℝ) (u : List (List (List ℂ))) :
    width (scaleU3 k u) = width u := by
  cases u with
  | nil => rfl
  | cons p l => simp [scaleU3, width]

theorem depth3_scaleU3 (k : ℝ) (u : List (List (List ℂ))) :
    depth3 (scaleU3 k u) = depth3 u := by
  cases u with
  | nil => rfl
  | cons p l =>
    cases p with
    | nil => rfl
    | cons r m => simp [scaleU3, depth3]

theorem sum_map_mul (k : ℝ) (l : List ℝ) : (l.map (fun x => k * x)).sum = k * l.sum := by
  induction l with
  | nil => simp
  | cons a l ih => simp [ih, mul_add]

theorem modeSum2_scale (k : ℝ) (u : List (List ℂ)) (kz : List ℝ) (tv : ℝ) (ir : ℕ) :
    modeSum2 (scaleU k u) kz tv ir = k * modeSum2 u kz tv ir := by
  unfold modeSum2 scaleU
  rw [List.zipWith_map_left]
  have hpt : ∀ (row : List ℂ) (kk : ℝ),
      ((row.map (fun z : ℂ => (k : ℂ) * z)).getD ir 0 *
        Complex.exp (Complex.I * (kk : ℂ) * (c : ℂ) * (tv : ℂ))).re
      = k * (row.getD ir 0 *
        Complex.exp (Complex.I * (kk : ℂ) * (c : ℂ) * (tv : ℂ))).re := by
    intro row kk
    rw [getD_zero_map_mul, mul_assoc]
    simp [Complex.mul_re]
  simp only [hpt]
  rw [← sum_map_mul k, List.map_zipWith]

theorem modeSum3_scale (k : ℝ) (u : List (List (List ℂ))) (kz : List ℝ) (tv : ℝ)
    (ix iy : ℕ) : modeSum3 (scaleU3 k u) kz tv ix iy = k * modeSum3 u kz tv ix iy := by
  unfold modeSum3 scaleU3
  rw [List.zipWith_map_left]
  have hmap : ∀ plane : List (List ℂ),
      (plane.map (List.map (fun z : ℂ => (k : ℂ) * z))).getD ix []
      = (plane.getD ix []).map (fun z : ℂ => (k : ℂ) * z) := by
    intro plane
    rw [List.getD_eq_getElem?_getD, List.getD_eq_getElem?_getD, List.getElem?_map]
    cases plane[ix]? with
    | none => rfl
    | some r => rfl
  have hgd : ∀ plane : List (List ℂ),
      ((plane.map (List.map (fun z : ℂ => (k : ℂ) * z))).getD ix []).getD iy 0
      = (k : ℂ) * (plane.getD ix []).getD iy 0 := by
    intro plane
    rw [hmap]
    exact getD_zero_map_mul k _ iy
  have hpt : ∀ (plane : List (List ℂ)) (kk : ℝ),
      (((plane.map (List.map (fun z : ℂ => (k : ℂ) * z))).getD ix []).getD iy 0 *
        Complex.exp (Complex.I * (kk : ℂ) * (c : ℂ) * (tv : ℂ))).re
      = k * ((plane.getD ix []).getD iy 0 *
        Complex.exp (Complex.I * (kk : ℂ) * (c : ℂ) * (tv : ℂ))).re := by
    intro plane kk
    rw [hgd, mul_assoc]
    simp [Complex.mul_re]
  simp only [hpt]
  rw [← sum_map_mul k, List.map_zipWith]

theorem addPrefix_nil_right (old : List ℝ) : addPrefix old [] = old := by
  simp [addPrefix]

theorem addPrefix_cons (a d : ℝ) (old ds : List ℝ) :
    addPrefix (a :: old) (d :: ds) = (a + d) :: addPrefix old ds := rfl

theorem zipWith_resynth_self (k : ℝ) (l : List ℝ) :
    List.zipWith (fun a w => a + k * (w - a)) l l = l := by
  induction l with
  | nil => rfl
  | cons a l ih => simp [ih]

theorem zipWith_resynth_addPrefix (k : ℝ) : ∀ (old ds : List ℝ),
    List.zipWith (fun a w => a + k * (w - a)) old (addPrefix old ds)
      = addPrefix old (ds.map (fun d => k * d))
  | old, [] => by
    rw [addPrefix_nil_right, zipWith_resynth_self, List.map_nil, addPrefix_nil_right]
  | [], d :: ds => rfl
  | a :: old, d :: ds => by
    rw [addPrefix_cons, List.map_cons, addPrefix_cons]
    simp only [List.zipWith_cons_cons]
    rw [zipWith_resynth_addPrefix k old ds]
    congr 1
    ring

theorem overwriteRows_full (w : ℕ) : ∀ (old new : List (List ℝ)),
    old.length = new.length → (∀ r ∈ old, r.length = w) → (∀ r ∈ new, r.length = w) →
    overwriteRows old new = new
  | [], [], _, _, _ => rfl
  | [], _ :: _, h, _, _ => by cases h
  | _ :: _, [], h, _, _ => by cases h
  | o :: old, n :: new, h, ho, hn => by
    unfold overwriteRows
    simp only [List.zipWith_cons_cons, List.length_cons, List.drop_succ_cons]
    have ho1 : o.length = w := ho o (List.mem_cons_self o old)
    have hn1 : n.length = w := hn n (List.mem_cons_self n new)
    have hrow : overwriteRow o n = n := by
      unfold overwriteRow
      rw [List.drop_eq_nil_of_le (by omega), List.append_nil]
    rw [hrow]
    have ih := overwriteRows_full w old new (by simpa using h)
      (fun r hr => ho r (List.mem_cons_of_mem o hr))
      (fun r hr => hn r (List.mem_cons_of_mem n hr))
    unfold overwriteRows at ih
    rw [List.cons_append, ih]

/-! Claim theorems. -/

/-- C9: AxipropLaser.E_field is longitudinally invariant and pure: two
calls differing only in z return identical values, and the object state
returned by the state-passing embedding always equals the input record,
so the stored u, kz and r are never mutated by a call. -/
theorem C9_E_field_z_invariant_pure :
    ∀ (spline : List ℝ → List ℝ → ℝ → ℝ) (p : AxipropLaser) (x y z₁ z₂ t : ℝ),
      E_field spline p x y z₁ t = E_field spline p x y z₂ t ∧
      (E_field spline p x y z₁ t).map (fun q => q.2)
        = (E_field spline p x y z₁ t).map (fun _ => p) := by
  intro spline p x y z₁ z₂ t
  refine ⟨rfl, ?_⟩
  cases h : get_E_r (t + p.time_offset) p.u p.kz with
  | none => simp [E_field, h]
  | some u_r => simp [E_field, h]

/-- C7: whenever the radial coordinate sqrt(x*x + y*y) of the query
point is strictly greater than max r or strictly less than min r,
E_field returns exactly (0, 0) — the out-of-domain fill value — for any
in-domain spline, rather than extrapolating or raising. -/
theorem C7_E_field_out_of_domain_zero
    (spline : List ℝ → List ℝ → ℝ → ℝ) (p : AxipropLaser) (x y z t : ℝ)
    (hsome : (get_E_r (t + p.time_offset) p.u p.kz).isSome = true)
    (hout : rmax p.r < Real.sqrt (x * x + y * y) ∨
      Real.sqrt (x * x + y * y) < rmin p.r) :
    E_field spline p x y z t = some ((0, 0), p) := by
  obtain ⟨u_r, hu⟩ := Option.isSome_iff_exists.mp hsome
  unfold E_field
  rw [hu, Option.map_some']
  unfold interp1dZeroFill
  rw [if_pos (Or.symm hout)]
  simp

/-- Witness for C7 at a concrete profile: a single-sample radial grid
r = [0] queried at radius 1, strictly beyond max r. -/
theorem C7_witness :
    E_field (fun _ _ _ => 1) (AxipropLaser.mk 1 false [[1]] [0] [0] 0 5 7) 1 0 0 0
      = some ((0, 0), AxipropLaser.mk 1 false [[1]] [0] [0] 0 5 7) := by
  refine C7_E_field_out_of_domain_zero _ _ 1 0 0 0 ?_ ?_
  · rw [show (0 : ℝ) + (AxipropLaser.mk 1 false [[1]] [0] [0] (0:ℝ) 5 7).time_offset
        = 0 by norm_num]
    rw [get_E_r_eq 0 [[1]] [0]
      (fun row hrow => by rw [List.mem_singleton.mp hrow]; rfl) rfl]
    rfl
  · left
    have h1 : rmax (AxipropLaser.mk 1 false [[1]] [0] [0] (0:ℝ) 5 7).r = 0 := by
      simp [rmax]
    rw [h1, show (1 : ℝ) * 1 + 0 * 0 = 1 by norm_num, Real.sqrt_one]
    norm_num

/-- C6: on a rectangular [Nkz, Nx, Ny] field with matching kz and a
[Nt, Nx] output array, the transverse-slice kernel overwrites every
entry u_t[it, ix] with the frequency-mode sum of
Re(u[:, ix, iy] exp(i kz c t[it])) taken at the single fixed line
iy = Ny // 2 - 1 (which wraps to index 0 when Ny = 1), dropping the
other transverse axis. -/
theorem C6_slice2d_midplane (u : List (List (List ℂ))) (u_t : List (List ℝ))
    (t kz : List ℝ)
    (hx3 : ∀ plane ∈ u, plane.length = width u)
    (hy3 : ∀ plane ∈ u, ∀ row ∈ plane, row.length = depth3 u)
    (hkz : kz.length = u.length) (hNy : 1 ≤ depth3 u)
    (hw : width u_t = width u) (hn : u_t.length = t.length)
    (hut : ∀ r ∈ u_t, r.length = width u) :
    get_temporal_slice2d u u_t t kz =
      some (t.map (fun tv => (List.range (width u)).map (fun ix =>
        modeSum3 u kz tv ix (if depth3 u = 1 then 0 else depth3 u / 2 - 1)))) := by
  rw [get_temporal_slice2d_eq u u_t t kz hx3 hy3 hkz hNy hw (le_of_eq hn.symm)]
  congr 1
  refine overwriteRows_full (width u) u_t _ ?_ hut ?_
  · rw [hn, List.length_map]
  · intro r hr
    obtain ⟨tv, htv, rfl⟩ := List.mem_map.mp hr
    simp

/-- Witness for C6 at a concrete [1, 1, 2] field: Ny = 2 selects
iy = 0 and the single output entry is the one-mode sum. -/
theorem C6_witness :
    get_temporal_slice2d [[[1, 2]]] [[0]] [0] [0] =
      some (([0] : List ℝ).map (fun tv =>
        (List.range (width ([[[1, 2]]] : List (List (List ℂ))))).map (fun ix =>
          modeSum3 [[[1, 2]]] [0] tv ix
            (if depth3 [[[1, 2]]] = 1 then 0 else depth3 [[[1, 2]]] / 2 - 1)))) := by
  refine C6_slice2d_midplane [[[1, 2]]] [[0]] [0] [0] ?_ ?_ rfl ?_ rfl rfl ?_
  · intro plane hplane
    rw [List.mem_singleton.mp hplane]
    rfl
  · intro plane hplane row hrow
    rw [List.mem_singleton.mp hplane] at hrow
    rw [List.mem_singleton.mp hrow]
    rfl
  · norm_num [depth3]
  · intro r hr
    rw [List.mem_singleton.mp hr]
    rfl

/-- C10: the fixed transverse index Ny // 2 - 1 of the slice kernel is
a valid python index for every Ny at least 1: it resolves to the wrapped
index 0 when Ny = 1 (where the raw value is -1) and to Ny / 2 - 1
otherwise, and on an Ny = 1 input the kernel succeeds, synthesizing the
single row iy = 0. -/
theorem C10_slice2d_index_safe :
    (∀ Ny : ℕ, 1 ≤ Ny →
      pyIdx Ny ((Ny : ℤ) / 2 - 1) = some (if Ny = 1 then 0 else Ny / 2 - 1)) ∧
    (∀ (u : List (List (List ℂ))) (u_t : List (List ℝ)) (t kz : List ℝ),
      (∀ plane ∈ u, plane.length = width u) →
      (∀ plane ∈ u, ∀ row ∈ plane, row.length = depth3 u) →
      kz.length = u.length → depth3 u = 1 →
      width u_t = width u → t.length ≤ u_t.length →
      get_temporal_slice2d u u_t t kz =
        some (overwriteRows u_t (t.map (fun tv =>
          (List.range (width u)).map (fun ix => modeSum3 u kz tv ix 0))))) := by
  constructor
  · exact pyIdx_half
  · intro u u_t t kz hx3 hy3 hkz h1 hw ht
    rw [get_temporal_slice2d_eq u u_t t kz hx3 hy3 hkz (le_of_eq h1.symm) hw ht]
    simp [h1]

/-- Witness for C10: the index resolution at Ny = 1 and a concrete
Ny = 1 kernel run. -/
theorem C10_witness :
    pyIdx 1 ((1 : ℤ) / 2 - 1) = some 0 ∧
    get_temporal_slice2d [[[7]]] [[0]] [0] [0] =
      some (overwriteRows [[0]] (([0] : List ℝ).map (fun tv =>
        (List.range (width ([[[7]]] : List (List (List ℂ))))).map
          (fun ix => modeSum3 [[[7]]] [0] tv ix 0)))) := by
  constructor
  · exact C10_slice2d_index_safe.1 1 le_rfl
  · refine C10_slice2d_index_safe.2 [[[7]]] [[0]] [0] [0] ?_ ?_ rfl rfl rfl ?_
    · intro plane hplane
      rw [List.mem_singleton.mp hplane]
      rfl
    · intro plane hplane row hrow
      rw [List.mem_singleton.mp hplane] at hrow
      rw [List.mem_singleton.mp hrow]
      rfl
    · norm_num

theorem scaleU_rect (k : ℝ) (u : List (List ℂ))
    (hrect : ∀ row ∈ u, row.length = width u) :
    ∀ row ∈ scaleU k u, row.length = width (scaleU k u) := by
  intro row hrow
  rw [width_scaleU]
  obtain ⟨r, hr, rfl⟩ := List.mem_map.mp hrow
  rw [List.length_map]
  exact hrect r hr

theorem scaleU3_rectx (k : ℝ) (u : List (List (List ℂ)))
    (hx3 : ∀ plane ∈ u, plane.length = width u) :
    ∀ plane ∈ scaleU3 k u, plane.length = width (scaleU3 k u) := by
  intro plane hplane
  rw [width_scaleU3]
  obtain ⟨p, hp, rfl⟩ := List.mem_map.mp hplane
  rw [List.length_map]
  exact hx3 p hp

theorem scaleU3_recty (k : ℝ) (u : List (List (List ℂ)))
    (hy3 : ∀ plane ∈ u, ∀ row ∈ plane, row.length = depth3 u) :
    ∀ plane ∈ scaleU3 k u, ∀ row ∈ plane, row.length = depth3 (scaleU3 k u) := by
  intro plane hplane row hrow
  rw [depth3_scaleU3]
  obtain ⟨p, hp, rfl⟩ := List.mem_map.mp hplane
  obtain ⟨r, hr, rfl⟩ := List.mem_map.mp hrow
  rw [List.length_map]
  exact hy3 p hp r hr

theorem sum_map_scale {α : Type} (k : ℝ) (f g : α → ℝ) (l : List α)
    (h : ∀ a ∈ l, f a = k * g a) : (l.map f).sum = k * (l.map g).sum := by
  induction l with
  | nil => simp
  | cons a l ih =>
    simp only [List.map_cons, List.sum_cons]
    rw [h a (List.mem_cons_self a l),
      ih (fun b hb => h b (List.mem_cons_of_mem a hb)), mul_add]

/-- C5: synthesis is linear in u.  Scaling the field by a real constant
k scales, on every valid input, the amount each call adds into each slot
of u_t for the 1-d accumulate kernel, and scales the whole output of the
radial-resolved, transverse-slice and full-volume kernels. -/
theorem C5_synthesis_linear :
    (∀ (k : ℝ) (u : List (List ℂ)) (u_t t kz : List ℝ) (Nr_loc : ℕ),
      (∀ row ∈ u, row.length = width u) → kz.length = u.length →
      Nr_loc ≤ width u → u_t.length = width u → t.length ≤ u_t.length →
      get_temporal_1d (scaleU k u) u_t t kz Nr_loc =
        (get_temporal_1d u u_t t kz Nr_loc).map
          (fun v => List.zipWith (fun a w => a + k * (w - a)) u_t v)) ∧
    (∀ (k : ℝ) (u : List (List ℂ)) (u_t : List (List ℝ)) (t kz : List ℝ),
      (∀ row ∈ u, row.length = width u) → kz.length = u.length →
      width u_t = width u → u_t.length = t.length →
      (∀ r ∈ u_t, r.length = width u) →
      get_temporal_radial (scaleU k u) u_t t kz =
        (get_temporal_radial u u_t t kz).map
          (List.map (List.map (fun s => k * s)))) ∧
    (∀ (k : ℝ) (u : List (List (List ℂ))) (u_t : List (List ℝ)) (t kz : List ℝ),
      (∀ plane ∈ u, plane.length = width u) →
      (∀ plane ∈ u, ∀ row ∈ plane, row.length = depth3 u) →
      kz.length = u.length → 1 ≤ depth3 u →
      width u_t = width u → u_t.length = t.length →
      (∀ r ∈ u_t, r.length = width u) →
      get_temporal_slice2d (scaleU3 k u) u_t t kz =
        (get_temporal_slice2d u u_t t kz).map
          (List.map (List.map (fun s => k * s)))) ∧
    (∀ (k : ℝ) (u : List (List (List ℂ))) (t kz : List ℝ),
      (∀ plane ∈ u, plane.length = width u) →
      (∀ plane ∈ u, ∀ row ∈ plane, row.length = depth3 u) →
      kz.length = u.length →
      get_temporal_3d (scaleU3 k u) t kz =
        (get_temporal_3d u t kz).map
          (List.map (List.map (List.map (fun s => k * s))))) := by
  refine ⟨?_, ?_, ?_, ?_⟩
  · intro k u u_t t kz Nr_loc hrect hkz hloc hsh ht
    rw [get_temporal_1d_eq (scaleU k u) u_t t kz Nr_loc (scaleU_rect k u hrect)
        (by rw [scaleU, List.length_map]; exact hkz)
        (by rw [width_scaleU]; exact hloc)
        (by rw [width_scaleU]; exact hsh) ht,
      get_temporal_1d_eq u u_t t kz Nr_loc hrect hkz hloc hsh ht,
      Option.map_some']
    congr 1
    rw [zipWith_resynth_addPrefix]
    congr 1
    rw [List.map_map]
    refine List.map_congr_left (fun tv _ => ?_)
    simp only [Function.comp]
    exact sum_map_scale k _ _ _ (fun ir _ => modeSum2_scale k u kz tv ir)
  · intro k u u_t t kz hrect hkz hw hn hut
    rw [get_temporal_radial_eq (scaleU k u) u_t t kz (scaleU_rect k u hrect)
        (by rw [scaleU, List.length_map]; exact hkz)
        (by rw [width_scaleU]; exact hw)
        hn,
      get_temporal_radial_eq u u_t t kz hrect hkz hw hn,
      Option.map_some']
    rw [overwriteRows_full (width u) u_t _ (by rw [hn, List.length_map]) hut
        (fun r hr => by
          obtain ⟨tv, htv, rfl⟩ := List.mem_map.mp hr
          rw [width_scaleU, List.length_map, List.length_range])]
    rw [overwriteRows_full (width u) u_t _ (by rw [hn, List.length_map]) hut
        (fun r hr => by
          obtain ⟨tv, htv, rfl⟩ := List.mem_map.mp hr
          rw [List.length_map, List.length_range])]
    congr 1
    rw [width_scaleU, List.map_map]
    refine List.map_congr_left (fun tv _ => ?_)
    simp only [Function.comp]
    rw [List.map_map]
    refine List.map_congr_left (fun ir _ => ?_)
    simp only [Function.comp]
    exact modeSum2_scale k u kz tv ir
  · intro k u u_t t kz hx3 hy3 hkz hNy hw hn hut
    rw [get_temporal_slice2d_eq (scaleU3 k u) u_t t kz (scaleU3_rectx k u hx3)
        (scaleU3_recty k u hy3)
        (by rw [scaleU3, List.length_map]; exact hkz)
        (by rw [depth3_scaleU3]; exact hNy)
        (by rw [width_scaleU3]; exact hw)
        (le_of_eq hn.symm),
      get_temporal_slice2d_eq u u_t t kz hx3 hy3 hkz hNy hw (le_of_eq hn.symm),
      Option.map_some']
    rw [overwriteRows_full (width u) u_t _ (by rw [hn, List.length_map]) hut
        (fun r hr => by
          obtain ⟨tv, htv, rfl⟩ := List.mem_map.mp hr
          rw [width_scaleU3, List.length_map, List.length_range])]
    rw [overwriteRows_full (width u) u_t _ (by rw [hn, List.length_map]) hut
        (fun r hr => by
          obtain ⟨tv, htv, rfl⟩ := List.mem_map.mp hr
          rw [List.length_map, List.length_range])]
    congr 1
    rw [width_scaleU3, depth3_scaleU3, List.map_map]
    refine List.map_congr_left (fun tv _ => ?_)
    simp only [Function.comp]
    rw [List.map_map]
    refine List.map_congr_left (fun ix _ => ?_)
    simp only [Function.comp]
    exact modeSum3_scale k u kz tv ix _
  · intro k u t kz hx3 hy3 hkz
    rw [get_temporal_3d_eq (scaleU3 k u) t kz (scaleU3_rectx k u hx3)
        (scaleU3_recty k u hy3)
        (by rw [scaleU3, List.length_map]; exact hkz),
      get_temporal_3d_eq u t kz hx3 hy3 hkz,
      Option.map_some']
    congr 1
    rw [width_scaleU3, depth3_scaleU3, List.map_map]
    refine List.map_congr_left (fun tv _ => ?_)
    simp only [Function.comp]
    rw [List.map_map]
    refine List.map_congr_left (fun ix _ => ?_)
    simp only [Function.comp]
    rw [List.map_map]
    refine List.map_congr_left (fun iy _ => ?_)
    simp only [Function.comp]
    exact modeSum3_scale k u kz tv ix iy

/-- Witness for C5 at concrete one-element fields with k = 2, for all
four kernel variants. -/
theorem C5_witness :
    get_temporal_1d (scaleU 2 [[1]]) [0] [0] [0] 1 =
      (get_temporal_1d [[1]] [0] [0] [0] 1).map
        (fun v => List.zipWith (fun a w => a + 2 * (w - a)) [0] v) ∧
    get_temporal_radial (scaleU 2 [[1]]) [[0]] [0] [0] =
      (get_temporal_radial [[1]] [[0]] [0] [0]).map
        (List.map (List.map (fun s => 2 * s))) ∧
    get_temporal_slice2d (scaleU3 2 [[[1]]]) [[0]] [0] [0] =
      (get_temporal_slice2d [[[1]]] [[0]] [0] [0]).map
        (List.map (List.map (fun s => 2 * s))) ∧
    get_temporal_3d (scaleU3 2 [[[1]]]) [0] [0] =
      (get_temporal_3d [[[1]]] [0] [0]).map
        (List.map (List.map (List.map (fun s => 2 * s)))) := by
  refine ⟨?_, ?_, ?_, ?_⟩
  · exact C5_synthesis_linear.1 2 [[1]] [0] [0] [0] 1
      (fun row hrow => by rw [List.mem_singleton.mp hrow]; rfl)
      rfl le_rfl rfl le_rfl
  · exact C5_synthesis_linear.2.1 2 [[1]] [[0]] [0] [0]
      (fun row hrow => by rw [List.mem_singleton.mp hrow]; rfl)
      rfl rfl rfl
      (fun r hr => by rw [List.mem_singleton.mp hr]; rfl)
  · exact C5_synthesis_linear.2.2.1 2 [[[1]]] [[0]] [0] [0]
      (fun plane hplane => by rw [List.mem_singleton.mp hplane]; rfl)
      (fun plane hplane row hrow => by
        rw [List.mem_singleton.mp hplane] at hrow
        rw [List.mem_singleton.mp hrow]
        rfl)
      rfl le_rfl rfl rfl
      (fun r hr => by rw [List.mem_singleton.mp hr]; rfl)
  · exact C5_synthesis_linear.2.2.2 2 [[[1]]] [0] [0]
      (fun plane hplane => by rw [List.mem_singleton.mp hplane]; rfl)
      (fun plane hplane row hrow => by
        rw [List.mem_singleton.mp hplane] at hrow
        rw [List.mem_singleton.mp hrow]
        rfl)
      rfl

theorem get_E_r_claim_eq (tv : ℝ) (u : List (List ℂ)) (kz : List ℝ)
    (hrect : ∀ row ∈ u, row.length = width u) (hkz : kz.length = u.length) :
    get_E_r_claim tv u kz = some ((List.range (width u)).map
      (fun ir => modeSum2 u kz tv ir / (u.length : ℝ))) := by
  unfold get_E_r_claim
  have hflen : (fftFactor kz tv).length = u.length := by
    unfold fftFactor
    rw [List.length_map, hkz]
  have hb : bmul (List.replicate u.length 1) (fftFactor kz tv)
      = some (fftFactor kz tv) := by
    unfold bmul
    rw [if_pos (by rw [List.length_replicate, hflen]), ← hflen,
      zipWith_mul_replicate_one]
  rw [hb]
  simp only [Option.some_bind]
  have hmm : omap (fun ir => (column2 u ir).bind
        (fun col => (bmul col (fftFactor kz tv)).map reSum)) (List.range (width u))
      = some ((List.range (width u)).map (modeSum2 u kz tv)) := by
    refine omap_eq_some_map _ _ _ (fun ir hir => ?_)
    exact innerSum2_eq u kz tv ir
      (fun row hrow => by
        rw [hrect row hrow]
        exact List.mem_range.mp hir) hkz
  rw [hmm, Option.map_some', List.map_map]
  rfl

/-- Counterexample to C1 as stated: at u = [[1, 1]] (one frequency
mode, two radial points), kz = [0] and t = 0, the evaluator divides the
mode-sums by FFT_factor.size = Nkz * Nr = 2, not by the mode count
Nkz = 1 that the claim asserts, so its output differs from the
mean-over-modes reading of the claim. -/
theorem C1_counterexample :
    get_E_r 0 [[1, 1]] [0] ≠ get_E_r_claim 0 [[1, 1]] [0] := by
  have hrect : ∀ row ∈ ([[1, 1]] : List (List ℂ)), row.length = width [[1, 1]] :=
    fun row hrow => by rw [List.mem_singleton.mp hrow]; rfl
  rw [get_E_r_eq 0 [[1, 1]] [0] hrect rfl, get_E_r_claim_eq 0 [[1, 1]] [0] hrect rfl]
  have hm : modeSum2 [[1, 1]] [0] 0 0 = 1 := by
    simp [modeSum2, Complex.exp_zero]
  intro h
  rw [Option.some.injEq, show List.range (width ([[1, 1]] : List (List ℂ))) = [0, 1]
    from rfl] at h
  simp only [List.map_cons, List.map_nil, List.cons.injEq] at h
  rw [hm] at h
  have hw2 : width ([[1, 1]] : List (List ℂ)) = 2 := rfl
  rw [hw2] at h
  norm_num at h

/-- C1 (amended): the single-time evaluator returns the
radial-resolved kernel row for the same time divided by the full
element count u.size = Nkz * Nr of the phase matrix, not by Nkz. -/
theorem C1_get_E_r_row_div_size (tv : ℝ) (u : List (List ℂ)) (kz : List ℝ)
    (hrect : ∀ row ∈ u, row.length = width u) (hkz : kz.length = u.length) :
    get_E_r tv u kz =
      (get_temporal_radial u [List.replicate (width u) 0] [tv] kz).map
        (fun w => (w.headD []).map
          (fun s => s / ((u.length * width u : ℕ) : ℝ))) := by
  rw [get_E_r_eq tv u kz hrect hkz,
    get_temporal_radial_eq u [List.replicate (width u) 0] [tv] kz hrect hkz
      (by simp [width]) rfl, Option.map_some']
  simp only [List.map_cons, List.map_nil]
  rw [overwriteRows_full (width u) [List.replicate (width u) 0]
      [(List.range (width u)).map (modeSum2 u kz tv)] rfl
      (fun r hr => by rw [List.mem_singleton.mp hr]; simp)
      (fun r hr => by rw [List.mem_singleton.mp hr]; simp)]
  simp only [List.headD_cons]
  rw [List.map_map]
  rfl

/-- Witness for the amended C1 at the concrete input of the
counterexample. -/
theorem C1_witness :
    get_E_r 0 [[1, 1]] [0] =
      (get_temporal_radial [[1, 1]]
          [List.replicate (width ([[1, 1]] : List (List ℂ))) 0] [0] [0]).map
        (fun w => (w.headD []).map
          (fun s => s / ((([[1, 1]] : List (List ℂ)).length *
            width ([[1, 1]] : List (List ℂ)) : ℕ) : ℝ))) :=
  C1_get_E_r_row_div_size 0 [[1, 1]] [0]
    (fun row hrow => by rw [List.mem_singleton.mp hrow]; rfl) rfl

theorem modeSum2_ones_t0 (ir : ℕ) (hir : ir < 4) :
    modeSum2 [[1, 1, 1, 1], [1, 1, 1, 1], [1, 1, 1, 1]] [0, Real.pi, 2 * Real.pi] 0 ir
      = 3 := by
  have hgd : (([1, 1, 1, 1] : List ℂ)[ir]?.getD 0) = 1 := by
    interval_cases ir <;> rfl
  simp [modeSum2, Complex.exp_zero, hgd]
  norm_num

/-- Counterexample to C3 as stated: with u the [3, 4] array of ones,
kz = [0, pi, 2 pi] and t = [0], every phase factor is exp(0) = 1
because t = 0 makes kz c t vanish, so the 1-d kernel adds
4 * (1 + 1 + 1) = 12 into u_t[0] — not 4 * (1 + cos pi + cos 2 pi) = 4
as the claim computes (that value would need c t = 1).  The run also
requires u_t to have length Nr = 4 to pass the shape assertion. -/
theorem C3_counterexample :
    get_temporal_1d [[1, 1, 1, 1], [1, 1, 1, 1], [1, 1, 1, 1]] [0, 0, 0, 0] [0]
        [0, Real.pi, 2 * Real.pi] 4 = some [12, 0, 0, 0] ∧ (12 : ℝ) ≠ 4 := by
  constructor
  · rw [get_temporal_1d_eq [[1, 1, 1, 1], [1, 1, 1, 1], [1, 1, 1, 1]] [0, 0, 0, 0]
        [0] [0, Real.pi, 2 * Real.pi] 4
        (fun row hrow => by fin_cases hrow <;> rfl)
        rfl (by norm_num [width]) rfl (by norm_num)]
    rw [show List.range 4 = [0, 1, 2, 3] from rfl]
    simp only [List.map_cons, List.map_nil]
    rw [modeSum2_ones_t0 0 (by norm_num), modeSum2_ones_t0 1 (by norm_num),
      modeSum2_ones_t0 2 (by norm_num), modeSum2_ones_t0 3 (by norm_num)]
    unfold addPrefix
    norm_num
  · norm_num

/-- C3 (amended): in the stated scenario the 1-d accumulate kernel adds
4 * (cos 0 + cos 0 + cos 0) = 12 into the existing value of u_t[0]
(each phase factor is 1 at t = 0), leaving the other slots of the
length-Nr accumulator unchanged. -/
theorem C3_amended (a₀ a₁ a₂ a₃ : ℝ) :
    get_temporal_1d [[1, 1, 1, 1], [1, 1, 1, 1], [1, 1, 1, 1]] [a₀, a₁, a₂, a₃] [0]
        [0, Real.pi, 2 * Real.pi] 4 = some [a₀ + 12, a₁, a₂, a₃] := by
  rw [get_temporal_1d_eq [[1, 1, 1, 1], [1, 1, 1, 1], [1, 1, 1, 1]] [a₀, a₁, a₂, a₃]
      [0] [0, Real.pi, 2 * Real.pi] 4
      (fun row hrow => by fin_cases hrow <;> rfl)
      rfl (by norm_num [width]) rfl (by norm_num)]
  rw [show List.range 4 = [0, 1, 2, 3] from rfl]
  simp only [List.map_cons, List.map_nil]
  rw [modeSum2_ones_t0 0 (by norm_num), modeSum2_ones_t0 1 (by norm_num),
    modeSum2_ones_t0 2 (by norm_num), modeSum2_ones_t0 3 (by norm_num)]
  unfold addPrefix
  norm_num

/-- Counterexample to C4 as stated: the kernels never assert the
invariant len(kz) == u.shape[0].  Here u has 2 frequency modes while kz
has length 1, yet get_temporal_radial neither raises an assertion nor
any other failure: numpy broadcasting silently stretches the length-1
phase factor and the call returns a value. -/
theorem C4_counterexample :
    ([[1], [1]] : List (List ℂ)).length ≠ ([0] : List ℝ).length ∧
    get_temporal_radial [[1], [1]] [[0]] [0] [0] = some [[2]] := by
  refine ⟨by norm_num, ?_⟩
  have hfft : fftFactor [0] 0 = [1] := by
    simp [fftFactor, Complex.exp_zero]
  have hcol : column2 [[1], [1]] 0 = some [1, 1] := by
    simp [column2, omap]
  have hbm : bmul [1, 1] [1] = some [1, 1] := by
    unfold bmul
    norm_num
  have hinner : innerSum2 [[1], [1]] [0] 0 0 = some 2 := by
    unfold innerSum2
    rw [hcol, Option.some_bind, hfft, hbm, Option.map_some']
    norm_num [reSum]
  unfold get_temporal_radial
  rw [if_pos (by constructor <;> rfl)]
  rw [show List.range (width ([[1], [1]] : List (List ℂ))) = [0] from rfl]
  simp only [omap, hinner, Option.some_bind, Option.map_some', Option.none_bind]
  rw [show overwriteRows [[0]] [[2]] = [[2]] from rfl]

/-- C4 (amended): the u_t shape invariants are enforced by precondition
assertions — a trailing-axis mismatch of u_t against the spatial width
fails every kernel immediately, and the radial-resolved kernel also
fails when the leading axis of u_t differs from len(t) — but the
invariant that the leading axis of u equals len(kz) is not
assertion-checked: when one of the two lengths is 1 a mismatched call
silently broadcasts (see the counterexample), otherwise it surfaces
as a broadcasting error rather than an assertion. -/
theorem C4_amended :
    (∀ (u : List (List ℂ)) (u_t t kz : List ℝ) (Nr_loc : ℕ),
      u_t.length ≠ width u → get_temporal_1d u u_t t kz Nr_loc = none) ∧
    (∀ (u : List (List ℂ)) (u_t : List (List ℝ)) (t kz : List ℝ),
      width u_t ≠ width u → get_temporal_radial u u_t t kz = none) ∧
    (∀ (u : List (List ℂ)) (u_t : List (List ℝ)) (t kz : List ℝ),
      u_t.length ≠ t.length → get_temporal_radial u u_t t kz = none) ∧
    (∀ (u : List (List (List ℂ))) (u_t : List (List ℝ)) (t kz : List ℝ),
      width u_t ≠ width u → get_temporal_slice2d u u_t t kz = none) := by
  refine ⟨?_, ?_, ?_, ?_⟩
  · intro u u_t t kz Nr_loc h
    unfold get_temporal_1d
    rw [if_neg h]
  · intro u u_t t kz h
    unfold get_temporal_radial
    rw [if_neg (fun hc => h hc.1)]
  · intro u u_t t kz h
    unfold get_temporal_radial
    rw [if_neg (fun hc => h hc.2)]
  · intro u u_t t kz h
    unfold get_temporal_slice2d
    rw [if_neg (fun hc => h hc.1)]

/-- Witness for the amended C4: concrete shape-mismatched calls that
all fail. -/
theorem C4_witness :
    (1 ≠ width ([[1, 1]] : List (List ℂ)) ∧
      get_temporal_1d [[1, 1]] [0] [] [] 0 = none) ∧
    (width ([[1, 1]] : List (List ℝ)) ≠ width ([[1]] : List (List ℂ)) ∧
      get_temporal_radial [[1]] [[1, 1]] [] [] = none) ∧
    (1 ≠ 0 ∧ get_temporal_radial [[1]] [[1]] [] [] = none) ∧
    (2 ≠ width ([[[1]]] : List (List (List ℂ))) ∧
      get_temporal_slice2d [[[1]]] [[1, 1]] [] [] = none) := by
  refine ⟨⟨by norm_num [width], ?_⟩, ⟨by norm_num [width], ?_⟩,
    ⟨by norm_num, ?_⟩, ⟨by norm_num [width], ?_⟩⟩
  · exact C4_amended.1 [[1, 1]] [0] [] [] 0 (by norm_num [width])
  · exact C4_amended.2.1 [[1]] [[1, 1]] [] [] (by norm_num [width])
  · exact C4_amended.2.2.1 [[1]] [[1]] [] [] (by norm_num)
  · exact C4_amended.2.2.2 [[[1]]] [[1, 1]] [] [] (by norm_num [width])

/-- Outer-product tabulation of fu over the kz and r axes, the array
a0 built by laser_from_fu. -/
def a0Grid (fu : ℝ → ℝ → ℂ) (kz r : List ℝ) : List (List ℂ) :=
  kz.map (fun k => r.map (fun rv => fu k rv))

/-- Per-radius energy: for each spatial index the sum over the
frequency axis of the squared magnitude — the quantity whose maximum
the source divides by ((np.abs(a0) ** 2).sum(0).max()). -/
noncomputable def energyPerRadius (a : List (List ℂ)) (Nr : ℕ) : List ℝ :=
  (List.range Nr).map (fun ir => (a.map (fun row => Complex.abs (row.getD ir 0) ^ 2)).sum)

/-- Per-mode energy: for each frequency row the sum over the spatial
axis of the squared magnitude — the quantity the claim wording uses. -/
noncomputable def energyPerMode (a : List (List ℂ)) : List ℝ :=
  a.map (fun row => (row.map (fun z => Complex.abs z ^ 2)).sum)

theorem laser_from_fu_true (fu : ℝ → ℝ → ℂ) (kz r : List ℝ) :
    laser_from_fu fu kz r true =
      ((energyPerRadius (a0Grid fu kz r) r.length).max?).map
        (fun M => (a0Grid fu kz r).map
          (List.map (fun z => z / (Real.sqrt M : ℂ)))) := rfl

theorem sum_map_div (l : List ℝ) (M : ℝ) :
    (l.map (fun x => x / M)).sum = l.sum / M := by
  induction l with
  | nil => simp
  | cons a l ih => simp [ih, add_div]

theorem getD_zero_map_div (s : ℝ) (row : List ℂ) (ir : ℕ) :
    (row.map (fun z => z / (s : ℂ))).getD ir 0 = row.getD ir 0 / (s : ℂ) := by
  rcases Nat.lt_or_ge ir row.length with h | h
  · rw [List.getD_eq_getElem _ _ (by simpa using h), List.getD_eq_getElem _ _ h]
    simp
  · rw [List.getD_eq_default _ _ (by simpa using h), List.getD_eq_default _ _ h]
    simp

theorem foldl_max_map (f : ℝ → ℝ) (hf : ∀ a b : ℝ, f (max a b) = max (f a) (f b)) :
    ∀ (l : List ℝ) (a : ℝ), (l.map f).foldl max (f a) = f (l.foldl max a)
  | [], _ => rfl
  | b :: l, a => by
    simp only [List.map_cons, List.foldl_cons]
    rw [← hf a b, foldl_max_map f hf l (max a b)]

theorem max?_map_of_max_comm (f : ℝ → ℝ)
    (hf : ∀ a b : ℝ, f (max a b) = max (f a) (f b)) :
    ∀ l : List ℝ, (l.map f).max? = (l.max?).map f
  | [] => rfl
  | a :: l => by
    show some ((l.map f).foldl max (f a)) = some (f (l.foldl max a))
    rw [foldl_max_map f hf l a]

theorem energyPerRadius_div (a : List (List ℂ)) (Nr : ℕ) (M : ℝ) (hM : 0 < M) :
    energyPerRadius (a.map (List.map (fun z => z / (Real.sqrt M : ℂ)))) Nr
      = (energyPerRadius a Nr).map (fun s => s / M) := by
  unfold energyPerRadius
  rw [List.map_map]
  refine List.map_congr_left (fun ir _ => ?_)
  simp only [Function.comp, List.map_map]
  have hpt : ∀ row : List ℂ,
      Complex.abs ((row.map (fun z => z / (Real.sqrt M : ℂ))).getD ir 0) ^ 2
      = Complex.abs (row.getD ir 0) ^ 2 / M := by
    intro row
    rw [getD_zero_map_div, map_div₀ Complex.abs, div_pow, Complex.abs_ofReal,
      abs_of_nonneg (Real.sqrt_nonneg M), Real.sq_sqrt hM.le]
  have hmap : a.map (fun row =>
        Complex.abs ((row.map (fun z => z / (Real.sqrt M : ℂ))).getD ir 0) ^ 2)
      = (a.map (fun row => Complex.abs (row.getD ir 0) ^ 2)).map (fun s => s / M) := by
    rw [List.map_map]
    exact List.map_congr_left (fun row _ => hpt row)
  calc (a.map (fun row =>
          Complex.abs ((row.map (fun z => z / (Real.sqrt M : ℂ))).getD ir 0) ^ 2)).sum
      = ((a.map (fun row => Complex.abs (row.getD ir 0) ^ 2)).map (fun s => s / M)).sum := by
        rw [hmap]
    _ = (a.map (fun row => Complex.abs (row.getD ir 0) ^ 2)).sum / M := by
        rw [sum_map_div]

theorem laser_from_fu_normalized (fu : ℝ → ℝ → ℂ) (kz r : List ℝ) (M : ℝ)
    (hmax : (energyPerRadius (a0Grid fu kz r) r.length).max? = some M)
    (hM : 0 < M) :
    laser_from_fu fu kz r true =
      some ((a0Grid fu kz r).map (List.map (fun z => z / (Real.sqrt M : ℂ)))) ∧
    (energyPerRadius
        ((a0Grid fu kz r).map (List.map (fun z => z / (Real.sqrt M : ℂ))))
        r.length).max? = some 1 := by
  constructor
  · rw [laser_from_fu_true, hmax, Option.map_some']
  · rw [energyPerRadius_div _ _ M hM,
      max?_map_of_max_comm (fun s => s / M)
        (fun a b => (max_div_div_right hM.le a b).symm),
      hmax, Option.map_some', div_self (ne_of_gt hM)]

/-- Counterexample to C2 as stated: for fu(k, r) = 1 - k on
kz = r = [0, 1] the normalizer divides by the maximum over SPACE of the
frequency-axis sums (here 1, so the array is returned unchanged), and
the quantity the claim asserts to be 1 — the maximum over the frequency
axis of the spatial sums of |a0|^2 — equals 2. -/
theorem C2_counterexample :
    laser_from_fu (fun k _ => 1 - (k : ℂ)) [0, 1] [0, 1] true
      = some [[1, 1], [0, 0]] ∧
    (energyPerMode [[1, 1], [0, 0]]).max? = some 2 ∧ (2 : ℝ) ≠ 1 := by
  have ha : a0Grid (fun k _ => 1 - (k : ℂ)) [0, 1] [0, 1] = [[1, 1], [0, 0]] := by
    simp [a0Grid]
  have hE : energyPerRadius [[1, 1], [0, 0]] 2 = [1, 1] := by
    simp [energyPerRadius, List.range_succ]
  refine ⟨?_, ?_, by norm_num⟩
  · rw [laser_from_fu_true, ha, show (([0, 1] : List ℝ)).length = 2 from rfl, hE,
      show ([1, 1] : List ℝ).max? = some (max 1 1) from rfl, max_self,
      Option.map_some']
    congr 1
    simp [Real.sqrt_one]
  · have hm : energyPerMode [[1, 1], [0, 0]] = [2, 0] := by
      simp [energyPerMode]
      norm_num
    rw [hm, show ([2, 0] : List ℝ).max? = some (max 2 0) from rfl,
      max_eq_left (by norm_num : (0 : ℝ) ≤ 2)]

/-- C2 (amended): with normalize=True, laser_from_fu divides by the
square root of the largest, over the SPATIAL axis, of the per-radius
sums over the FREQUENCY axis of |a0|^2; whenever that maximum M is
positive, the returned array satisfies max over space of sum over
frequency of the squared magnitude equal to one. -/
theorem C2_energy_normalization (fu : ℝ → ℝ → ℂ) (kz r : List ℝ) (M : ℝ)
    (hmax : (energyPerRadius (a0Grid fu kz r) r.length).max? = some M)
    (hM : 0 < M) :
    laser_from_fu fu kz r true =
      some ((a0Grid fu kz r).map (List.map (fun z => z / (Real.sqrt M : ℂ)))) ∧
    (energyPerRadius
        ((a0Grid fu kz r).map (List.map (fun z => z / (Real.sqrt M : ℂ))))
        r.length).max? = some 1 :=
  laser_from_fu_normalized fu kz r M hmax hM

/-- Witness for the amended C2 at the constant field fu = 1 on
one-point axes, where the normalizing maximum is 1. -/
theorem C2_witness :
    laser_from_fu (fun _ _ => 1) [0] [0] true =
      some ((a0Grid (fun _ _ => 1) [0] [0]).map
        (List.map (fun z => z / (Real.sqrt 1 : ℂ)))) ∧
    (energyPerRadius
        ((a0Grid (fun _ _ => 1) [0] [0]).map
          (List.map (fun z => z / (Real.sqrt 1 : ℂ)))) 1).max? = some 1 := by
  refine C2_energy_normalization (fun _ _ => 1) [0] [0] 1 ?_ (by norm_num)
  have h1 : energyPerRadius (a0Grid (fun _ _ => 1) [0] [0]) 1 = [1] := by
    unfold energyPerRadius a0Grid
    rw [show List.range 1 = [0] from rfl]
    simp
  show (energyPerRadius (a0Grid (fun _ _ => 1) [0] [0]) 1).max? = some 1
  rw [h1]
  rfl

/-- C8: byte layout of the two WarpX writers.  The uniform-mesh writer
emits flag byte 1, then the three counts len(t), len(x), len(y) as
little-endian unsigned 32-bit integers at byte offsets 1-4, 5-8 and
9-12, then only the first and last element of t and of x, then y[0]
alone when len(y) = 1 and y[0] followed by y[-1] otherwise, then the
full field array; the non-uniform writer emits flag byte 0, the same
three counts, then the complete t, x, y axes followed by the full field
array. -/
theorem C8_writer_layout :
    (∀ (enc : ℝ → List ℕ) (x y t E : List ℝ),
      t.length < 2 ^ 32 → x.length < 2 ^ 32 → y.length < 2 ^ 32 →
      t.length ≠ 0 → x.length ≠ 0 → y.length ≠ 0 →
      (write_file_unf enc x y t E).map (fun b => b.take 1) = some [1] ∧
      (write_file_unf enc x y t E).map (fun b => (b.drop 1).take 4)
        = some (le32 t.length) ∧
      (write_file_unf enc x y t E).map (fun b => (b.drop 5).take 4)
        = some (le32 x.length) ∧
      (write_file_unf enc x y t E).map (fun b => (b.drop 9).take 4)
        = some (le32 y.length) ∧
      (write_file_unf enc x y t E).map (fun b => b.drop 13) =
        some (enc (t.headD 0) ++ enc (t.getLastD 0)
          ++ enc (x.headD 0) ++ enc (x.getLastD 0)
          ++ (if y.length = 1 then enc (y.headD 0)
              else enc (y.headD 0) ++ enc (y.getLastD 0))
          ++ E.flatMap enc)) ∧
    (∀ (enc : ℝ → List ℕ) (x y t E : List ℝ),
      t.length < 2 ^ 32 → x.length < 2 ^ 32 → y.length < 2 ^ 32 →
      (write_file enc x y t E).map (fun b => b.take 1) = some [0] ∧
      (write_file enc x y t E).map (fun b => (b.drop 1).take 4)
        = some (le32 t.length) ∧
      (write_file enc x y t E).map (fun b => (b.drop 5).take 4)
        = some (le32 x.length) ∧
      (write_file enc x y t E).map (fun b => (b.drop 9).take 4)
        = some (le32 y.length) ∧
      (write_file enc x y t E).map (fun b => b.drop 13) =
        some (t.flatMap enc ++ x.flatMap enc ++ y.flatMap enc ++ E.flatMap enc)) := by
  constructor
  · intro enc x y t E h1 h2 h3 h4 h5 h6
    unfold write_file_unf
    rw [if_pos ⟨h1, h2, h3, h4, h5, h6⟩]
    exact ⟨rfl, rfl, rfl, rfl, rfl⟩
  · intro enc x y t E h1 h2 h3
    unfold write_file
    rw [if_pos ⟨h1, h2, h3⟩]
    exact ⟨rfl, rfl, rfl, rfl, rfl⟩

/-- Witness for C8 at one-sample axes (the y axis of length 1, the
single-value-omission case) with a constant one-byte encoder. -/
theorem C8_witness :
    (write_file_unf (fun _ => [7]) [1] [2] [3] [4]).map (fun b => b.take 1)
      = some [1] ∧
    (write_file_unf (fun _ => [7]) [1] [2] [3] [4]).map (fun b => (b.drop 9).take 4)
      = some (le32 1) ∧
    (write_file (fun _ => [7]) [1] [2] [3] [4]).map (fun b => b.take 1)
      = some [0] := by
  refine ⟨?_, ?_, ?_⟩
  · exact (C8_writer_layout.1 (fun _ => [7]) [1] [2] [3] [4] (by norm_num)
      (by norm_num) (by norm_num) (by norm_num) (by norm_num) (by norm_num)).1
  · exact (C8_writer_layout.1 (fun _ => [7]) [1] [2] [3] [4] (by norm_num)
      (by norm_num) (by norm_num) (by norm_num) (by norm_num) (by norm_num)).2.2.2.1
  · exact (C8_writer_layout.2 (fun _ => [7]) [1] [2] [3] [4] (by norm_num)
      (by norm_num) (by norm_num)).1

end Axiprop
